import Mathlib

/-!
# speedtest-direct: the session registry and the connection handler

A shallow embedding of `main.go`.

* `ClientManager.Run` owns `sessions : map[int](chan ClientMessage)`.  The map is
  embedded as an association list from session id to the channel stored under it;
  a channel is its capacity together with the envelopes it currently buffers.
  `Client.Receive` is a reference to the very channel stored under `Client.User`,
  so the embedding keeps it as the map entry and a `Client` carries the key.
* `rand.Int31()` is an input: every call of `newClient` is given the list of the
  samples it may draw.
* The `select` of the control loop is embedded as one function per case plus
  `iterate`, which first evaluates the operand `newClient()` of the send case
  (Go evaluates the right-hand side of every send case on entering the `select`)
  and then runs the case that commits.
* A send on a full channel suspends the control loop; the suspended envelope is
  kept in `RunState.blocked` until a receiver takes from that channel.
* `SignalServer` is embedded as its reader goroutine (`reader`), the `select`
  statement of the main loop (`selectStmt`), the enclosing `for` (`forLoop`) and
  the function with its deferred send on `cm.Delete` (`SignalServer`).
-/

namespace SpeedtestDirect

/-! ## Data model -/

/-- The constant `clientBuffer` of the source. -/
def clientBuffer : Nat := 100

/-- The struct `ClientMessage`; `Deliverable` is the identity of the result channel. -/
structure ClientMessage where
  Contents : String
  Source : Int
  Destination : Int
  Deliverable : Nat
  deriving DecidableEq, Repr

/-- A buffered `chan ClientMessage`: its capacity and the envelopes it holds, oldest first. -/
structure Chan where
  cap : Nat
  buf : List ClientMessage
  deriving DecidableEq, Repr

/-- The expression `make(chan ClientMessage, n)`. -/
def makeChan (n : Nat) : Chan := ⟨n, []⟩

/-- The struct `Client`; the channel `Receive` is the one stored under `User` in the map. -/
structure Client where
  User : Int
  deriving DecidableEq, Repr

/-- The map `sessions`. -/
abbrev Sessions := List (Int × Chan)

/-- The map read `sessions[uid]`; `none` is both "absent" and the nil channel. -/
def sessionsGet : Sessions → Int → Option Chan
  | [], _ => none
  | (k, ch) :: rest, uid => if k = uid then some ch else sessionsGet rest uid

/-- The statement `delete(sessions, uid)`. -/
def sessionsDelete : Sessions → Int → Sessions
  | [], _ => []
  | (k, ch) :: rest, uid =>
    if k = uid then sessionsDelete rest uid else (k, ch) :: sessionsDelete rest uid

/-- The assignment `sessions[uid] = ch`. -/
def sessionsSet (sessions : Sessions) (uid : Int) (ch : Chan) : Sessions :=
  (uid, ch) :: sessionsDelete sessions uid

/-- The keys of the map. -/
def sessionsKeys (sessions : Sessions) : List Int := sessions.map Prod.fst

/-- The builtin `len(sessions)`. -/
def sessionsLen (sessions : Sessions) : Nat := (sessionsKeys sessions).length

/-- The channel stored under `uid` is changed by `f`; the keys stay as they are. -/
def sessionsUpdate : Sessions → Int → (Chan → Chan) → Sessions
  | [], _, _ => []
  | (k, ch) :: rest, uid, f =>
    if k = uid then (k, f ch) :: sessionsUpdate rest uid f
    else (k, ch) :: sessionsUpdate rest uid f

/-- The channel stored under `uid` gets `msg` appended to its buffer. -/
def sessionsPush (sessions : Sessions) (uid : Int) (msg : ClientMessage) : Sessions :=
  sessionsUpdate sessions uid (fun ch => ⟨ch.cap, ch.buf ++ [msg]⟩)

/-- The channel stored under `uid` gets its buffer replaced. -/
def sessionsSetBuf (sessions : Sessions) (uid : Int) (buf : List ClientMessage) : Sessions :=
  sessionsUpdate sessions uid (fun ch => ⟨ch.cap, buf⟩)

/-! ## `ClientManager.Run` -/

/-- The loop `for uid == 0 || sessions[uid] != nil { uid = int(rand.Int31() >> 9) }` of
`newClient`, started with the current `uid` and the samples still to be drawn.  The
result is the `uid` on which the loop stops and the samples left; `none` when the
samples run out before the loop stops. -/
def pickUid (sessions : Sessions) : Int → List Nat → Option (Int × List Nat)
  | uid, [] =>
    if uid = 0 ∨ (sessionsGet sessions uid).isSome then none else some (uid, [])
  | uid, r :: rs =>
    if uid = 0 ∨ (sessionsGet sessions uid).isSome then
      pickUid sessions (Int.ofNat (r >>> 9)) rs
    else some (uid, r :: rs)

/-- The closure `newClient`: the client returned, the map afterwards and the samples left. -/
def newClient (sessions : Sessions) (samples : List Nat) :
    Option (Client × Sessions × List Nat) :=
  match pickUid sessions 0 samples with
  | none => none
  | some (uid, rest) =>
    some (⟨uid⟩, sessionsSet sessions uid (makeChan clientBuffer), rest)

/-- The body of `case client := <-cm.Delete`. -/
def deleteCase (sessions : Sessions) (client : Client) : Sessions :=
  sessionsDelete sessions client.User

/-- What the body of `case msg := <-cm.Send` has done when it completes or suspends. -/
structure SendOutcome where
  /-- The map and its channels. -/
  sessions : Sessions
  /-- The value sent on `msg.Deliverable`. -/
  deliverable : Bool
  /-- The envelope of a suspended `ch <- msg`, when the channel was full. -/
  blocked : Option ClientMessage
  deriving DecidableEq, Repr

/-- The body of `case msg := <-cm.Send`. -/
def sendCase (sessions : Sessions) (msg : ClientMessage) : SendOutcome :=
  match sessionsGet sessions msg.Destination with
  | some ch =>
    if ch.buf.length < ch.cap then
      ⟨sessionsPush sessions msg.Destination msg, true, none⟩
    else
      ⟨sessions, true, some msg⟩
  | none => ⟨sessions, false, none⟩

/-- The state of the control loop: the map, and the envelope of the send the loop is
suspended in (`none` when the loop is at the top of an iteration). -/
structure RunState where
  sessions : Sessions
  blocked : Option ClientMessage
  deriving DecidableEq, Repr

/-- The state `Run` starts its loop in. -/
def RunState.init : RunState := ⟨[], none⟩

/-- The case of the `select` that commits. -/
inductive Ready where
  | New
  | Delete (client : Client)
  | Send (msg : ClientMessage)
  deriving DecidableEq, Repr

/-- A communication observed on a channel. -/
inductive Event where
  /-- The send `cm.New <- c` committed. -/
  | handed (c : Client)
  /-- The send `msg.Deliverable <- b`. -/
  | signal (ch : Nat) (b : Bool)
  /-- The owner of session `uid` received `m` from its channel. -/
  | taken (uid : Int) (m : ClientMessage)
  deriving DecidableEq, Repr

/-- One iteration of the `for`/`select` of `Run`: the operand `newClient()` is evaluated,
then the ready case runs.  `none` when the loop is suspended in a send or `newClient`
does not stop on the samples. -/
def iterate (m : RunState) (samples : List Nat) (ready : Ready) :
    Option (RunState × List Event) :=
  match m.blocked with
  | some _ => none
  | none =>
    match newClient m.sessions samples with
    | none => none
    | some (c, sessions, _) =>
      match ready with
      | .New => some (⟨sessions, none⟩, [.handed c])
      | .Delete client => some (⟨deleteCase sessions client, none⟩, [])
      | .Send msg =>
        let o := sendCase sessions msg
        some (⟨o.sessions, o.blocked⟩, [.signal msg.Deliverable o.deliverable])

/-- The envelope of the suspended send, when it is a send on the channel of `uid`. -/
def blockedFor (m : RunState) (uid : Int) : List ClientMessage :=
  match m.blocked with
  | some msg => if msg.Destination = uid then [msg] else []
  | none => []

/-- The state of the suspended send after a receive on the channel of `uid`. -/
def unblock (m : RunState) (uid : Int) : Option ClientMessage :=
  match m.blocked with
  | some msg => if msg.Destination = uid then none else some msg
  | none => none

/-- A receive `<-c.Receive` by the owner of session `uid`: the oldest envelope leaves the
channel, and a send suspended on this channel completes.  `none` when there is nothing
to receive. -/
def receive (m : RunState) (uid : Int) : Option (RunState × ClientMessage) :=
  match sessionsGet m.sessions uid with
  | none => none
  | some ch =>
    match ch.buf ++ blockedFor m uid with
    | [] => none
    | x :: rest => some (⟨sessionsSetBuf m.sessions uid rest, unblock m uid⟩, x)

/-- A step of the registry together with the consumers of its channels. -/
inductive Action where
  | loop (samples : List Nat) (ready : Ready)
  | take (uid : Int)
  deriving DecidableEq, Repr

/-- The effect of one action. -/
def step (m : RunState) : Action → Option (RunState × List Event)
  | .loop samples ready => iterate m samples ready
  | .take uid =>
    match receive m uid with
    | none => none
    | some (m', x) => some (m', [.taken uid x])

/-- The effect of a sequence of actions, with the events in order. -/
def run (m : RunState) : List Action → Option (RunState × List Event)
  | [] => some (m, [])
  | a :: as =>
    match step m a with
    | none => none
    | some (m', evs) =>
      match run m' as with
      | none => none
      | some (m'', evs') => some (m'', evs ++ evs')

/-- The ids of the clients handed to callers. -/
def handedIds : List Event → List Int
  | [] => []
  | .handed c :: evs => c.User :: handedIds evs
  | _ :: evs => handedIds evs

/-- The envelopes received from the channel of `uid`, in order. -/
def takenFrom (uid : Int) : List Event → List ClientMessage
  | [] => []
  | .taken u m :: evs => if u = uid then m :: takenFrom uid evs else takenFrom uid evs
  | _ :: evs => takenFrom uid evs

/-- The envelopes with destination `uid` whose `Send` case ran, in order. -/
def routedTo (uid : Int) : List Action → List ClientMessage
  | [] => []
  | .loop _ (.Send msg) :: as =>
    if msg.Destination = uid then msg :: routedTo uid as else routedTo uid as
  | _ :: as => routedTo uid as

/-- Whether the action runs the `Delete` case for session `uid`. -/
def deletes (uid : Int) : Action → Bool
  | .loop _ (.Delete client) => decide (client.User = uid)
  | _ => false

/-- Whether the action runs the `Delete` case. -/
def isDelete : Action → Bool
  | .loop _ (.Delete _) => true
  | _ => false

/-! ## `SignalServer` -/

/-- The struct `Message`. -/
structure Message where
  Datab64 : String
  Dest : Int
  Id : Int
  deriving DecidableEq, Repr

/-- The struct `Ack`. -/
structure Ack where
  Deliverable : Bool
  You : Int
  Id : Int
  deriving DecidableEq, Repr

/-- The struct `Delivery`. -/
structure Delivery where
  Datab64 : String
  Src : Int
  Dest : Int
  deriving DecidableEq, Repr

/-- The reader goroutine over the results of `websocket.JSON.Receive` (`none` is an
error): the messages sent on `read`, and whether `exit <- 0` was reached. -/
def reader : List (Option Message) → List Message × Bool
  | [] => ([], false)
  | none :: _ => ([], true)
  | some m :: rest =>
    if m.Id = 0 then ([], true)
    else ((m :: (reader rest).1), (reader rest).2)

/-- The case of the handler's `select` that commits. -/
inductive Selected where
  /-- The case `jm := <-read`; `ack` is the channel made, `deliverable` the value received on it. -/
  | read (jm : Message) (ack : Nat) (deliverable : Bool)
  /-- The case `m := <-c.Receive`. -/
  | receive (m : ClientMessage)
  /-- The case `<-exit`. -/
  | exit
  deriving DecidableEq, Repr

/-- What the handler does on its channels and on the websocket. -/
inductive Did where
  /-- The send `cm.Send <- msg`. -/
  | route (msg : ClientMessage)
  /-- A `websocket.JSON.Send` of an `Ack`. -/
  | ack (a : Ack)
  /-- A `websocket.JSON.Send` of a `Delivery`. -/
  | delivery (d : Delivery)
  /-- The deferred send `cm.Delete <- c`. -/
  | delete (c : Client)
  deriving DecidableEq, Repr

/-- How a statement in the body of a `for` completes. -/
inductive Completion where
  /-- The statement completes; the loop goes on with its next iteration. -/
  | normal
  /-- The enclosing `for` is terminated. -/
  | leaveFor
  deriving DecidableEq, Repr

/-- The composite literal `ClientMessage{Contents: jm.Datab64, Source: c.User,
Destination: jm.Dest, Deliverable: ack}` of the case `jm := <-read`. -/
def envelope (c : Client) (jm : Message) (ack : Nat) : ClientMessage :=
  ⟨jm.Datab64, c.User, jm.Dest, ack⟩

/-- The `select` statement of the main loop.  The `break` of `case <-exit` terminates the
innermost `for`, `switch` or `select` statement, which is the `select` itself, so the
statement completes normally. -/
def selectStmt (c : Client) : Selected → List Did × Completion
  | .read jm ack deliverable =>
    ([.route (envelope c jm ack), .ack ⟨deliverable, c.User, jm.Id⟩], .normal)
  | .receive m => ([.delivery ⟨m.Contents, m.Source, c.User⟩], .normal)
  | .exit => ([], .normal)

/-- The `for { select ... }` of `SignalServer` over the cases that commit, in order: what
the loop did, and whether the loop was left. -/
def forLoop (c : Client) : List Selected → List Did × Bool
  | [] => ([], false)
  | e :: es =>
    match selectStmt c e with
    | (ds, .leaveFor) => (ds, true)
    | (ds, .normal) => (ds ++ (forLoop c es).1, (forLoop c es).2)

/-- The function `SignalServer` for the client `c` received from `cm.New`: what it did, and
whether it returned.  The deferred function runs when the function returns. -/
def SignalServer (c : Client) (events : List Selected) : List Did × Bool :=
  match forLoop c events with
  | (ds, true) => (ds ++ [.delete c], true)
  | (ds, false) => (ds, false)

/-- The case `jm := <-read` of the handler of `c` against the `Send` case of the control
loop on the map `sessions`: the envelope sent on `cm.Send` is the one the `Send` case
receives, and the value the `Send` case sends on `msg.Deliverable` is the one the handler
receives from `ack`.  The result is what the handler did and what the `Send` case did. -/
def handleRead (sessions : Sessions) (c : Client) (jm : Message) (ack : Nat) :
    List Did × SendOutcome :=
  ((selectStmt c (.read jm ack (sendCase sessions (envelope c jm ack)).deliverable)).1,
    sendCase sessions (envelope c jm ack))

/-! ## Inputs used to exercise the definitions -/

/-- An envelope from session 11 to session 22. -/
def hi : ClientMessage := ⟨"aGk=", 11, 22, 0⟩

/-- A map with the sessions 22 and 11, the queue of 22 holding `n` envelopes. -/
def twoSessions (n : Nat) : Sessions :=
  [(22, ⟨clientBuffer, List.replicate n hi⟩), (11, makeChan clientBuffer)]

/-! # Theorems -/

/-! ## The map operations -/

theorem sessionsGet_delete_self (s : Sessions) (k : Int) :
    sessionsGet (sessionsDelete s k) k = none := by
  induction s with
  | nil => rfl
  | cons e rest ih =>
    obtain ⟨j, ch⟩ := e
    by_cases h : j = k
    · simp only [sessionsDelete, h, if_true, ih]
    · simp only [sessionsDelete, h, if_false, sessionsGet, ih]

theorem sessionsGet_delete_ne (s : Sessions) {k k' : Int} (hne : k' ≠ k) :
    sessionsGet (sessionsDelete s k) k' = sessionsGet s k' := by
  induction s with
  | nil => rfl
  | cons e rest ih =>
    obtain ⟨j, ch⟩ := e
    by_cases h : j = k
    · have hj : j ≠ k' := fun hjk => hne (hjk ▸ h)
      simp only [sessionsDelete, h, if_true, sessionsGet, ih]
      rw [if_neg (h ▸ hj)]
    · simp only [sessionsDelete, h, if_false, sessionsGet, ih]

theorem sessionsDelete_absent (s : Sessions) (k : Int) (h : sessionsGet s k = none) :
    sessionsDelete s k = s := by
  induction s with
  | nil => rfl
  | cons e rest ih =>
    obtain ⟨j, ch⟩ := e
    by_cases hj : j = k
    · simp [sessionsGet, hj] at h
    · simp only [sessionsGet, hj, if_false] at h
      simp only [sessionsDelete, hj, if_false, ih h]

theorem sessionsGet_set_self (s : Sessions) (k : Int) (ch : Chan) :
    sessionsGet (sessionsSet s k ch) k = some ch := by
  simp [sessionsSet, sessionsGet]

theorem sessionsGet_set_ne (s : Sessions) {k k' : Int} (ch : Chan) (hne : k' ≠ k) :
    sessionsGet (sessionsSet s k ch) k' = sessionsGet s k' := by
  have hk : k ≠ k' := fun h => hne h.symm
  simp [sessionsSet, sessionsGet, hk, sessionsGet_delete_ne s hne]

theorem sessionsGet_update_self (s : Sessions) (k : Int) (f : Chan → Chan) :
    sessionsGet (sessionsUpdate s k f) k = (sessionsGet s k).map f := by
  induction s with
  | nil => rfl
  | cons e rest ih =>
    obtain ⟨j, ch⟩ := e
    by_cases hj : j = k
    · simp only [sessionsUpdate, hj, if_true, sessionsGet, Option.map_some']
    · simp only [sessionsUpdate, hj, if_false, sessionsGet, ih]

theorem sessionsGet_update_ne (s : Sessions) {k k' : Int} (f : Chan → Chan) (hne : k' ≠ k) :
    sessionsGet (sessionsUpdate s k f) k' = sessionsGet s k' := by
  induction s with
  | nil => rfl
  | cons e rest ih =>
    obtain ⟨j, ch⟩ := e
    by_cases hj : j = k
    · have hjk : ¬ k = k' := fun h => hne h.symm
      simp only [sessionsUpdate, hj, if_true, sessionsGet, hjk, if_false, ih]
    · simp only [sessionsUpdate, hj, if_false, sessionsGet, ih]

theorem sessionsKeys_update (s : Sessions) (k : Int) (f : Chan → Chan) :
    sessionsKeys (sessionsUpdate s k f) = sessionsKeys s := by
  induction s with
  | nil => rfl
  | cons e rest ih =>
    obtain ⟨j, ch⟩ := e
    simp only [sessionsKeys] at ih
    by_cases hj : j = k <;>
      simp only [sessionsUpdate, sessionsKeys, hj, if_true, if_false, List.map_cons, ih]

theorem mem_sessionsKeys_iff (s : Sessions) (k : Int) :
    k ∈ sessionsKeys s ↔ (sessionsGet s k).isSome = true := by
  induction s with
  | nil => simp [sessionsKeys, sessionsGet]
  | cons e rest ih =>
    obtain ⟨j, ch⟩ := e
    simp only [sessionsKeys] at ih
    by_cases hj : j = k
    · simp [sessionsKeys, sessionsGet, hj]
    · have hkj : ¬ k = j := fun h => hj h.symm
      simp [sessionsKeys, sessionsGet, hj, hkj, ih]

/-! ## `newClient` -/

theorem pickUid_spec (s : Sessions) (samples : List Nat) :
    ∀ (uid u : Int) (rest : List Nat), pickUid s uid samples = some (u, rest) →
      u ≠ 0 ∧ sessionsGet s u = none ∧ (u = uid ∨ ∃ r ∈ samples, u = Int.ofNat (r >>> 9)) := by
  induction samples with
  | nil =>
    intro uid u rest h
    by_cases hc : uid = 0 ∨ (sessionsGet s uid).isSome = true
    · simp [pickUid, hc] at h
    · simp only [pickUid, hc, if_false, Option.some.injEq, Prod.mk.injEq] at h
      obtain ⟨rfl, -⟩ := h
      simp only [not_or] at hc
      refine ⟨hc.1, ?_, Or.inl rfl⟩
      cases hg : sessionsGet s uid with
      | none => rfl
      | some ch => simp [hg] at hc
  | cons r rs ih =>
    intro uid u rest h
    by_cases hc : uid = 0 ∨ (sessionsGet s uid).isSome = true
    · simp only [pickUid, hc, if_true] at h
      obtain ⟨h0, hfree, hsrc⟩ := ih _ u rest h
      refine ⟨h0, hfree, Or.inr ?_⟩
      rcases hsrc with hsrc | ⟨r', hr', hsrc⟩
      · exact ⟨r, List.mem_cons_self _ _, hsrc⟩
      · exact ⟨r', List.mem_cons_of_mem _ hr', hsrc⟩
    · simp only [pickUid, hc, if_false, Option.some.injEq, Prod.mk.injEq] at h
      obtain ⟨rfl, -⟩ := h
      simp only [not_or] at hc
      refine ⟨hc.1, ?_, Or.inl rfl⟩
      cases hg : sessionsGet s uid with
      | none => rfl
      | some ch => simp [hg] at hc

theorem newClient_spec (s s' : Sessions) (samples rest : List Nat) (c : Client)
    (h : newClient s samples = some (c, s', rest)) :
    c.User ≠ 0 ∧ sessionsGet s c.User = none ∧
      s' = (c.User, makeChan clientBuffer) :: s ∧
      ∃ r ∈ samples, c.User = Int.ofNat (r >>> 9) := by
  unfold newClient at h
  cases hp : pickUid s 0 samples with
  | none => simp [hp] at h
  | some p =>
    obtain ⟨u, rest'⟩ := p
    simp only [hp, Option.some.injEq, Prod.mk.injEq] at h
    obtain ⟨rfl, rfl, -⟩ := h
    obtain ⟨h0, hfree, hsrc⟩ := pickUid_spec s samples 0 u rest' hp
    refine ⟨h0, hfree, ?_, ?_⟩
    · simp [sessionsSet, sessionsDelete_absent s u hfree]
    · rcases hsrc with hsrc | hsrc
      · exact absurd hsrc h0
      · exact hsrc

/-! ## The cases of the control loop -/

/-- A sample of `rand.Int31` is below `2^31`; shifted right by nine bits it is at most
`2^22 - 1`. -/
theorem shift_range (r : Nat) (h : r < 2 ^ 31) : r >>> 9 ≤ 2 ^ 22 - 1 := by
  rw [Nat.shiftRight_eq_div_pow]
  have : r / 2 ^ 9 < 2 ^ 22 := by
    apply Nat.div_lt_of_lt_mul
    simpa using h
  omega

theorem sendCase_room (s : Sessions) (msg : ClientMessage) (ch : Chan)
    (hB : sessionsGet s msg.Destination = some ch) (hroom : ch.buf.length < ch.cap) :
    sendCase s msg = ⟨sessionsPush s msg.Destination msg, true, none⟩ := by
  simp [sendCase, hB, hroom]

theorem sendCase_full (s : Sessions) (msg : ClientMessage) (ch : Chan)
    (hB : sessionsGet s msg.Destination = some ch) (hfull : ¬ ch.buf.length < ch.cap) :
    sendCase s msg = ⟨s, true, some msg⟩ := by
  simp [sendCase, hB, hfull]

theorem sendCase_absent (s : Sessions) (msg : ClientMessage)
    (hB : sessionsGet s msg.Destination = none) :
    sendCase s msg = ⟨s, false, none⟩ := by
  simp [sendCase, hB]

theorem sessionsGet_push_self (s : Sessions) (k : Int) (msg : ClientMessage) (ch : Chan)
    (h : sessionsGet s k = some ch) :
    sessionsGet (sessionsPush s k msg) k = some ⟨ch.cap, ch.buf ++ [msg]⟩ := by
  rw [sessionsPush, sessionsGet_update_self, h]
  rfl

/-- C1, as the code has it: when the destination `B` of the envelope is a key of the map,
the `Send` case signals `Deliverable = true`, keeps the keys of the map and leaves the
queue of every other id as it was.  When the queue of `B` holds fewer envelopes than its
capacity, the envelope itself is appended at the tail of that queue and the loop goes
on; when the queue is at capacity no queue changes and the loop is suspended holding
the envelope. -/
theorem route_hit (sessions : Sessions) (msg : ClientMessage) (ch : Chan)
    (hB : sessionsGet sessions msg.Destination = some ch) :
    (sendCase sessions msg).deliverable = true ∧
    sessionsKeys (sendCase sessions msg).sessions = sessionsKeys sessions ∧
    (∀ E : Int, E ≠ msg.Destination →
      sessionsGet (sendCase sessions msg).sessions E = sessionsGet sessions E) ∧
    (ch.buf.length < ch.cap →
      sessionsGet (sendCase sessions msg).sessions msg.Destination
          = some ⟨ch.cap, ch.buf ++ [msg]⟩ ∧
        (sendCase sessions msg).blocked = none) ∧
    (¬ ch.buf.length < ch.cap →
      (sendCase sessions msg).sessions = sessions ∧
        (sendCase sessions msg).blocked = some msg) := by
  by_cases hfull : ch.buf.length < ch.cap
  · rw [sendCase_room sessions msg ch hB hfull]
    refine ⟨rfl, sessionsKeys_update _ _ _, ?_, ?_, fun h => absurd hfull h⟩
    · intro E hE
      exact sessionsGet_update_ne _ _ hE
    · intro _
      refine ⟨?_, rfl⟩
      exact sessionsGet_push_self sessions _ msg ch hB
  · rw [sendCase_full sessions msg ch hB hfull]
    exact ⟨rfl, rfl, fun _ _ => rfl, fun h => absurd h hfull, fun _ => ⟨rfl, rfl⟩⟩

theorem route_hit_witness :
    (sendCase (twoSessions 1) hi).deliverable = true ∧
    sessionsGet (sendCase (twoSessions 1) hi).sessions 22 = some ⟨100, [hi, hi]⟩ ∧
    sessionsGet (sendCase (twoSessions 1) hi).sessions 11 = some ⟨100, []⟩ ∧
    (sendCase (twoSessions 100) hi).blocked = some hi :=
  have h := route_hit (twoSessions 1) hi ⟨100, [hi]⟩ (by decide)
  have hf := route_hit (twoSessions 100) hi ⟨100, List.replicate 100 hi⟩ (by decide)
  ⟨h.1, (h.2.2.2.1 (by decide)).1, h.2.2.1 11 (by decide), (hf.2.2.2.2 (by decide)).2⟩

/-- C1 as stated fails when the queue of the destination is full: session 22 is a key of
the map and its queue holds 100 envelopes; the `Send` case signals `true`, but the queue
of 22 is what it was and the envelope is held by the suspended send, not appended. -/
theorem route_hit_full_queue :
    sessionsGet (twoSessions 100) hi.Destination = some ⟨100, List.replicate 100 hi⟩ ∧
    (sendCase (twoSessions 100) hi).deliverable = true ∧
    sessionsGet (sendCase (twoSessions 100) hi).sessions hi.Destination
      = some ⟨100, List.replicate 100 hi⟩ ∧
    sessionsGet (sendCase (twoSessions 100) hi).sessions hi.Destination
      ≠ some ⟨100, List.replicate 100 hi ++ [hi]⟩ ∧
    (sendCase (twoSessions 100) hi).blocked = some hi := by
  decide

/-- C2: when the destination of the envelope is not a key of the map, the `Send` case
signals `Deliverable = false`, the map with every queue in it is exactly what it was,
and the envelope is held nowhere. -/
theorem route_miss (sessions : Sessions) (msg : ClientMessage)
    (hB : sessionsGet sessions msg.Destination = none) :
    (sendCase sessions msg).deliverable = false ∧
    (sendCase sessions msg).sessions = sessions ∧
    (sendCase sessions msg).blocked = none := by
  rw [sendCase_absent sessions msg hB]
  exact ⟨rfl, rfl, rfl⟩

theorem route_miss_witness :
    (sendCase (twoSessions 1) ⟨"eHg=", 11, 99, 1⟩).deliverable = false ∧
    (sendCase (twoSessions 1) ⟨"eHg=", 11, 99, 1⟩).sessions = twoSessions 1 ∧
    (sendCase (twoSessions 1) ⟨"eHg=", 11, 99, 1⟩).blocked = none :=
  route_miss (twoSessions 1) ⟨"eHg=", 11, 99, 1⟩ (by decide)

/-- C8: the `Delete` case leaves a map without the id of the client, in which every
other id has the queue it had; the map is unchanged when the id was absent; and running
the case twice gives what running it once gives. -/
theorem delete_contract (sessions : Sessions) (client : Client) :
    sessionsGet (deleteCase sessions client) client.User = none ∧
    (∀ E : Int, E ≠ client.User →
      sessionsGet (deleteCase sessions client) E = sessionsGet sessions E) ∧
    (sessionsGet sessions client.User = none → deleteCase sessions client = sessions) ∧
    deleteCase (deleteCase sessions client) client = deleteCase sessions client := by
  refine ⟨sessionsGet_delete_self _ _, fun E hE => sessionsGet_delete_ne _ hE,
    fun h => sessionsDelete_absent _ _ h, ?_⟩
  exact sessionsDelete_absent _ _ (sessionsGet_delete_self _ _)

theorem delete_contract_witness :
    sessionsGet (deleteCase (twoSessions 1) ⟨22⟩) 22 = none ∧
    sessionsGet (deleteCase (twoSessions 1) ⟨22⟩) 11 = sessionsGet (twoSessions 1) 11 ∧
    deleteCase (twoSessions 1) ⟨99⟩ = twoSessions 1 :=
  ⟨(delete_contract (twoSessions 1) ⟨22⟩).1,
    (delete_contract (twoSessions 1) ⟨22⟩).2.1 11 (by decide),
    (delete_contract (twoSessions 1) ⟨99⟩).2.2.1 (by decide)⟩

/-- C9: when the samples are 31-bit and the loop of `newClient` stops on them, the id
returned lies in `[1, 2^22 - 1]`, was not a key of the map, and the map afterwards is
the map before with that id bound to a new empty channel of capacity 100. -/
theorem newClient_fresh (sessions sessions' : Sessions) (samples rest : List Nat)
    (c : Client) (hr : ∀ r ∈ samples, r < 2 ^ 31)
    (h : newClient sessions samples = some (c, sessions', rest)) :
    1 ≤ c.User ∧ c.User ≤ 2 ^ 22 - 1 ∧
    sessionsGet sessions c.User = none ∧
    sessionsGet sessions' c.User = some ⟨100, []⟩ ∧
    (∀ E : Int, E ≠ c.User → sessionsGet sessions' E = sessionsGet sessions E) ∧
    sessionsKeys sessions' = c.User :: sessionsKeys sessions := by
  obtain ⟨h0, hfree, hs, r, hrm, hru⟩ := newClient_spec sessions sessions' samples rest c h
  have hle := shift_range r (hr r hrm)
  have hnn : (0 : Int) ≤ c.User := by rw [hru]; exact Int.ofNat_nonneg _
  have hup : c.User ≤ 2 ^ 22 - 1 := by
    rw [hru]
    have : ((r >>> 9 : Nat) : Int) ≤ ((2 ^ 22 - 1 : Nat) : Int) := Int.ofNat_le.mpr hle
    simpa using this
  refine ⟨by omega, hup, hfree, ?_, ?_, ?_⟩
  · rw [hs]; simp [sessionsGet, makeChan, clientBuffer]
  · intro E hE
    have : ¬ c.User = E := fun h => hE h.symm
    rw [hs]; simp [sessionsGet, this]
  · rw [hs]; rfl

theorem newClient_fresh_witness :
    newClient (twoSessions 0) [0, 11 * 512 + 7, 33 * 512 + 1, 5]
      = some (⟨33⟩, (33, ⟨100, []⟩) :: twoSessions 0, [5]) ∧
    (1 : Int) ≤ 33 ∧ (33 : Int) ≤ 2 ^ 22 - 1 ∧ sessionsGet (twoSessions 0) 33 = none :=
  have h := newClient_fresh (twoSessions 0) ((33, ⟨100, []⟩) :: twoSessions 0)
    [0, 11 * 512 + 7, 33 * 512 + 1, 5] [5] ⟨33⟩ (by decide) (by decide)
  ⟨by decide, h.1, h.2.1, h.2.2.1⟩

/-! ## Runs of the control loop -/

theorem iterate_some (m m' : RunState) (samples : List Nat) (ready : Ready)
    (evs : List Event) (h : iterate m samples ready = some (m', evs)) :
    m.blocked = none ∧ ∃ c s1 rest, newClient m.sessions samples = some (c, s1, rest) ∧
      (m', evs) = (match ready with
        | .New => (⟨s1, none⟩, [.handed c])
        | .Delete client => (⟨deleteCase s1 client, none⟩, [])
        | .Send msg => (⟨(sendCase s1 msg).sessions, (sendCase s1 msg).blocked⟩,
            [.signal msg.Deliverable (sendCase s1 msg).deliverable])) := by
  unfold iterate at h
  cases hb : m.blocked with
  | some x => simp [hb] at h
  | none =>
    refine ⟨rfl, ?_⟩
    simp only [hb] at h
    cases hn : newClient m.sessions samples with
    | none => simp [hn] at h
    | some p =>
      obtain ⟨c, s1, rest⟩ := p
      refine ⟨c, s1, rest, rfl, ?_⟩
      simp only [hn] at h
      cases ready <;> simp only [Option.some.injEq] at h <;> exact h.symm

theorem sessionsKeys_sendCase (s : Sessions) (msg : ClientMessage) :
    sessionsKeys (sendCase s msg).sessions = sessionsKeys s := by
  cases hg : sessionsGet s msg.Destination with
  | none => rw [sendCase_absent s msg hg]
  | some ch =>
    by_cases hroom : ch.buf.length < ch.cap
    · rw [sendCase_room s msg ch hg hroom]
      exact sessionsKeys_update _ _ _
    · rw [sendCase_full s msg ch hg hroom]

theorem receive_some (m m' : RunState) (uid : Int) (x : ClientMessage)
    (h : receive m uid = some (m', x)) :
    ∃ ch rest, sessionsGet m.sessions uid = some ch ∧
      ch.buf ++ blockedFor m uid = x :: rest ∧
      m' = ⟨sessionsSetBuf m.sessions uid rest, unblock m uid⟩ := by
  unfold receive at h
  cases hg : sessionsGet m.sessions uid with
  | none => simp [hg] at h
  | some ch =>
    simp only [hg] at h
    cases hq : ch.buf ++ blockedFor m uid with
    | nil => simp [hq] at h
    | cons y rest =>
      simp only [hq, Option.some.injEq, Prod.mk.injEq] at h
      obtain ⟨rfl, rfl⟩ := h
      exact ⟨ch, rest, rfl, hq, rfl⟩

theorem handedIds_append (xs ys : List Event) :
    handedIds (xs ++ ys) = handedIds xs ++ handedIds ys := by
  induction xs with
  | nil => rfl
  | cons e rest ih => cases e <;> simp [handedIds, ih]

theorem takenFrom_append (uid : Int) (xs ys : List Event) :
    takenFrom uid (xs ++ ys) = takenFrom uid xs ++ takenFrom uid ys := by
  induction xs with
  | nil => rfl
  | cons e rest ih =>
    cases e with
    | taken u m => by_cases hu : u = uid <;> simp [takenFrom, hu, ih]
    | handed c => simp [takenFrom, ih]
    | signal ch b => simp [takenFrom, ih]

/-- What a step without the `Delete` case does to the keys and which ids it hands out:
the keys are kept, and an id handed out is non-zero, new and a key afterwards. -/
theorem step_handed (m m' : RunState) (a : Action) (evs : List Event)
    (h : step m a = some (m', evs)) (hd : isDelete a = false) :
    (∀ i ∈ sessionsKeys m.sessions, i ∈ sessionsKeys m'.sessions) ∧
    (handedIds evs = [] ∨ ∃ i, handedIds evs = [i] ∧ i ≠ 0 ∧
      i ∉ sessionsKeys m.sessions ∧ i ∈ sessionsKeys m'.sessions) := by
  cases a with
  | take uid =>
    simp only [step] at h
    cases hr : receive m uid with
    | none => simp [hr] at h
    | some p =>
      obtain ⟨m1, x⟩ := p
      simp only [hr, Option.some.injEq, Prod.mk.injEq] at h
      obtain ⟨rfl, rfl⟩ := h
      obtain ⟨ch, rest, -, -, rfl⟩ := receive_some m m1 uid x hr
      refine ⟨fun i hi => ?_, Or.inl rfl⟩
      simpa [sessionsSetBuf, sessionsKeys_update] using hi
  | loop samples ready =>
    simp only [step] at h
    obtain ⟨-, c, s1, rest, hn, hm⟩ := iterate_some m m' samples ready evs h
    obtain ⟨h0, hfree, hs, -⟩ := newClient_spec m.sessions s1 samples rest c hn
    have hk1 : sessionsKeys s1 = c.User :: sessionsKeys m.sessions := by rw [hs]; rfl
    have hnew : c.User ∉ sessionsKeys m.sessions := by
      rw [mem_sessionsKeys_iff, hfree]; simp
    cases ready with
    | New =>
      simp only [Prod.mk.injEq] at hm
      obtain ⟨rfl, rfl⟩ := hm
      refine ⟨fun i hi => ?_, Or.inr ⟨c.User, rfl, h0, hnew, ?_⟩⟩
      · show i ∈ sessionsKeys s1
        rw [hk1]; exact List.mem_cons_of_mem _ hi
      · show c.User ∈ sessionsKeys s1
        rw [hk1]; exact List.mem_cons_self _ _
    | Delete client => simp [isDelete] at hd
    | Send msg =>
      simp only [Prod.mk.injEq] at hm
      obtain ⟨rfl, rfl⟩ := hm
      refine ⟨fun i hi => ?_, Or.inl rfl⟩
      show i ∈ sessionsKeys (sendCase s1 msg).sessions
      rw [sessionsKeys_sendCase, hk1]; exact List.mem_cons_of_mem _ hi

/-- The invariant behind uniqueness, for a run from any state. -/
theorem run_handed (acts : List Action) :
    ∀ (m m' : RunState) (log : List Event) (hs : List Int),
      run m acts = some (m', log) → (∀ a ∈ acts, isDelete a = false) →
      hs.Nodup → (∀ i ∈ hs, i ≠ 0 ∧ i ∈ sessionsKeys m.sessions) →
      (hs ++ handedIds log).Nodup ∧
        ∀ i ∈ hs ++ handedIds log, i ≠ 0 ∧ i ∈ sessionsKeys m'.sessions := by
  induction acts with
  | nil =>
    intro m m' log hs h _ hnd hin
    simp only [run, Option.some.injEq, Prod.mk.injEq] at h
    obtain ⟨rfl, rfl⟩ := h
    simpa [handedIds] using ⟨hnd, hin⟩
  | cons a rest ih =>
    intro m m' log hs h hdel hnd hin
    simp only [run] at h
    cases hst : step m a with
    | none => simp [hst] at h
    | some p =>
      obtain ⟨m1, evs⟩ := p
      simp only [hst] at h
      cases hrun : run m1 rest with
      | none => simp [hrun] at h
      | some q =>
        obtain ⟨m2, evs'⟩ := q
        simp only [hrun, Option.some.injEq, Prod.mk.injEq] at h
        obtain ⟨rfl, rfl⟩ := h
        obtain ⟨hkeep, hhand⟩ := step_handed m m1 a evs hst (hdel a (List.mem_cons_self _ _))
        have hrest : ∀ a' ∈ rest, isDelete a' = false :=
          fun a' ha' => hdel a' (List.mem_cons_of_mem _ ha')
        rw [handedIds_append, ← List.append_assoc]
        rcases hhand with hnone | ⟨i, hi, hi0, hinew, hikey⟩
        · rw [hnone, List.append_nil]
          exact ih m1 m2 evs' hs hrun hrest hnd (fun j hj => ⟨(hin j hj).1, hkeep j (hin j hj).2⟩)
        · rw [hi]
          refine ih m1 m2 evs' (hs ++ [i]) hrun hrest ?_ ?_
          · rw [List.nodup_append]
            refine ⟨hnd, List.nodup_singleton i, ?_⟩
            intro j hj hj'
            rw [List.mem_singleton] at hj'
            subst hj'
            exact hinew (hin j hj).2
          · intro j hj
            rcases List.mem_append.mp hj with hj | hj
            · exact ⟨(hin j hj).1, hkeep j (hin j hj).2⟩
            · rw [List.mem_singleton] at hj
              subst hj
              exact ⟨hi0, hikey⟩

/-- C3: in a run of the control loop from the empty map in which the `Delete` case never
runs, the ids of the clients handed to callers on `cm.New` are pairwise distinct and
non-zero. -/
theorem handed_ids_unique (acts : List Action) (m : RunState) (log : List Event)
    (hrun : run RunState.init acts = some (m, log))
    (hdel : ∀ a ∈ acts, isDelete a = false) :
    (handedIds log).Nodup ∧ ∀ i ∈ handedIds log, i ≠ 0 := by
  have h := run_handed acts RunState.init m log [] hrun hdel List.nodup_nil (by simp)
  simp only [List.nil_append] at h
  exact ⟨h.1, fun i hi => (h.2 i hi).1⟩

theorem handed_ids_unique_witness :
    (handedIds [.handed ⟨11⟩, .signal 0 true, .handed ⟨22⟩, .taken 11 ⟨"x", 7, 11, 0⟩]).Nodup ∧
    ∀ i ∈ handedIds [.handed ⟨11⟩, .signal 0 true, .handed ⟨22⟩, .taken 11 ⟨"x", 7, 11, 0⟩],
      i ≠ 0 :=
  handed_ids_unique
    [.loop [0, 11 * 512] .New, .loop [33 * 512] (.Send ⟨"x", 7, 11, 0⟩),
      .loop [11 * 512 + 1, 33 * 512, 22 * 512] .New, .take 11]
    ⟨[(22, ⟨100, []⟩), (33, ⟨100, []⟩), (11, ⟨100, []⟩)], none⟩
    [.handed ⟨11⟩, .signal 0 true, .handed ⟨22⟩, .taken 11 ⟨"x", 7, 11, 0⟩]
    (by decide) (by decide)

/-! ## Order of delivery -/

theorem routedTo_cons (uid : Int) (a : Action) (as : List Action) :
    routedTo uid (a :: as) = routedTo uid [a] ++ routedTo uid as := by
  cases a with
  | take u => rfl
  | loop samples ready =>
    cases ready with
    | New => rfl
    | Delete client => rfl
    | Send msg => by_cases hd : msg.Destination = uid <;> simp [routedTo, hd]

theorem blockedFor_unblock_self (s : Sessions) (m : RunState) (uid : Int) :
    blockedFor ⟨s, unblock m uid⟩ uid = [] := by
  cases hb : m.blocked with
  | none => simp [blockedFor, unblock, hb]
  | some msg => by_cases hd : msg.Destination = uid <;> simp [blockedFor, unblock, hb, hd]

theorem blockedFor_unblock_ne (s : Sessions) (m : RunState) {uid D : Int} (hne : D ≠ uid) :
    blockedFor ⟨s, unblock m uid⟩ D = blockedFor m D := by
  cases hb : m.blocked with
  | none => simp [blockedFor, unblock, hb]
  | some msg =>
    by_cases hd : msg.Destination = uid
    · have hu : ¬ uid = D := fun h => hne h.symm
      simp [blockedFor, unblock, hb, hd, hu]
    · simp [blockedFor, unblock, hb, hd]

/-- One step, seen from a session `D` that is registered and is not deleted by the step:
`D` stays registered, and what was taken, what is queued and what is suspended extend
what was queued and suspended by the envelope routed to `D`, if any. -/
theorem step_fifo (m m' : RunState) (a : Action) (evs : List Event) (D : Int) (ch : Chan)
    (h : step m a = some (m', evs)) (hD : sessionsGet m.sessions D = some ch)
    (hd : deletes D a = false) :
    ∃ ch', sessionsGet m'.sessions D = some ch' ∧ ch'.cap = ch.cap ∧
      takenFrom D evs ++ ch'.buf ++ blockedFor m' D
        = ch.buf ++ blockedFor m D ++ routedTo D [a] := by
  cases a with
  | take uid =>
    simp only [step] at h
    cases hr : receive m uid with
    | none => simp [hr] at h
    | some p =>
      obtain ⟨m1, x⟩ := p
      simp only [hr, Option.some.injEq, Prod.mk.injEq] at h
      obtain ⟨rfl, rfl⟩ := h
      obtain ⟨chu, rest, hgu, hq, rfl⟩ := receive_some m m1 uid x hr
      by_cases hu : uid = D
      · subst hu
        rw [hD] at hgu
        obtain rfl := Option.some.inj hgu
        refine ⟨⟨ch.cap, rest⟩, ?_, rfl, ?_⟩
        · show sessionsGet (sessionsSetBuf m.sessions uid rest) uid = _
          rw [sessionsSetBuf, sessionsGet_update_self, hD]; rfl
        · rw [blockedFor_unblock_self]
          simp [takenFrom, routedTo, hq]
      · have hDu : D ≠ uid := fun h => hu h.symm
        refine ⟨ch, ?_, rfl, ?_⟩
        · show sessionsGet (sessionsSetBuf m.sessions uid rest) D = _
          rw [sessionsSetBuf, sessionsGet_update_ne _ _ hDu, hD]
        · rw [blockedFor_unblock_ne _ _ hDu]
          simp [takenFrom, routedTo, hu]
  | loop samples ready =>
    simp only [step] at h
    obtain ⟨hb, c, s1, rest, hn, hm⟩ := iterate_some m m' samples ready evs h
    obtain ⟨-, hfree, hs, -⟩ := newClient_spec m.sessions s1 samples rest c hn
    have hcD : ¬ c.User = D := by
      intro hc; rw [hc, hD] at hfree; exact Option.noConfusion hfree
    have hD1 : sessionsGet s1 D = some ch := by
      rw [hs]; simp [sessionsGet, hcD, hD]
    cases ready with
    | New =>
      simp only [Prod.mk.injEq] at hm
      obtain ⟨rfl, rfl⟩ := hm
      exact ⟨ch, hD1, rfl, by simp [takenFrom, routedTo, blockedFor, hb]⟩
    | Delete client =>
      simp only [Prod.mk.injEq] at hm
      obtain ⟨rfl, rfl⟩ := hm
      have hne : D ≠ client.User := by
        intro hc; simp [deletes, hc] at hd
      refine ⟨ch, ?_, rfl, by simp [takenFrom, routedTo, blockedFor, hb]⟩
      show sessionsGet (deleteCase s1 client) D = _
      rw [deleteCase, sessionsGet_delete_ne _ hne, hD1]
    | Send msg =>
      simp only [Prod.mk.injEq] at hm
      obtain ⟨rfl, rfl⟩ := hm
      by_cases hdest : msg.Destination = D
      · have hD1' : sessionsGet s1 msg.Destination = some ch := by rw [hdest]; exact hD1
        by_cases hroom : ch.buf.length < ch.cap
        · refine ⟨⟨ch.cap, ch.buf ++ [msg]⟩, ?_, rfl, ?_⟩
          · show sessionsGet (sendCase s1 msg).sessions D = _
            rw [sendCase_room s1 msg ch hD1' hroom]
            show sessionsGet (sessionsPush s1 msg.Destination msg) D = _
            rw [← hdest]
            exact sessionsGet_push_self s1 _ msg ch hD1'
          · rw [sendCase_room s1 msg ch hD1' hroom]
            simp [takenFrom, routedTo, blockedFor, hb, hdest]
        · refine ⟨ch, ?_, rfl, ?_⟩
          · show sessionsGet (sendCase s1 msg).sessions D = _
            rw [sendCase_full s1 msg ch hD1' hroom]
            exact hD1
          · rw [sendCase_full s1 msg ch hD1' hroom]
            simp [takenFrom, routedTo, blockedFor, hb, hdest]
      · have hne : D ≠ msg.Destination := fun h => hdest h.symm
        cases hg : sessionsGet s1 msg.Destination with
        | none =>
          refine ⟨ch, ?_, rfl, ?_⟩
          · show sessionsGet (sendCase s1 msg).sessions D = _
            rw [sendCase_absent s1 msg hg]; exact hD1
          · rw [sendCase_absent s1 msg hg]
            simp [takenFrom, routedTo, blockedFor, hb, hdest]
        | some ch2 =>
          by_cases hroom : ch2.buf.length < ch2.cap
          · refine ⟨ch, ?_, rfl, ?_⟩
            · show sessionsGet (sendCase s1 msg).sessions D = _
              rw [sendCase_room s1 msg ch2 hg hroom]
              show sessionsGet (sessionsPush s1 msg.Destination msg) D = _
              rw [sessionsPush, sessionsGet_update_ne _ _ hne, hD1]
            · rw [sendCase_room s1 msg ch2 hg hroom]
              simp [takenFrom, routedTo, blockedFor, hb, hdest]
          · refine ⟨ch, ?_, rfl, ?_⟩
            · show sessionsGet (sendCase s1 msg).sessions D = _
              rw [sendCase_full s1 msg ch2 hg hroom]; exact hD1
            · rw [sendCase_full s1 msg ch2 hg hroom]
              simp [takenFrom, routedTo, blockedFor, hb, hdest]

/-- C7: take a run in which session `D` is registered at the start and the `Delete` case
never runs for `D`.  Then `D` is registered at the end, and the envelopes taken from the
queue of `D`, followed by the envelopes still in that queue and by the envelope of a send
suspended on it, are the envelopes queued and suspended at the start followed by the
envelopes routed to `D`, in the order in which the `Send` case ran for them.  So the
envelopes are taken in the order in which they were routed. -/
theorem per_destination_fifo (acts : List Action) :
    ∀ (m m' : RunState) (log : List Event) (D : Int) (ch : Chan),
      run m acts = some (m', log) → sessionsGet m.sessions D = some ch →
      (∀ a ∈ acts, deletes D a = false) →
      ∃ ch', sessionsGet m'.sessions D = some ch' ∧
        takenFrom D log ++ ch'.buf ++ blockedFor m' D
          = ch.buf ++ blockedFor m D ++ routedTo D acts ∧
        takenFrom D log <+: ch.buf ++ blockedFor m D ++ routedTo D acts := by
  induction acts with
  | nil =>
    intro m m' log D ch h hD _
    simp only [run, Option.some.injEq, Prod.mk.injEq] at h
    obtain ⟨rfl, rfl⟩ := h
    exact ⟨ch, hD, by simp [takenFrom, routedTo], by simp [takenFrom]⟩
  | cons a rest ih =>
    intro m m' log D ch h hD hdel
    simp only [run] at h
    cases hst : step m a with
    | none => simp [hst] at h
    | some p =>
      obtain ⟨m1, evs⟩ := p
      simp only [hst] at h
      cases hrun : run m1 rest with
      | none => simp [hrun] at h
      | some q =>
        obtain ⟨m2, evs'⟩ := q
        simp only [hrun, Option.some.injEq, Prod.mk.injEq] at h
        obtain ⟨rfl, rfl⟩ := h
        obtain ⟨ch1, hD1, -, heq1⟩ :=
          step_fifo m m1 a evs D ch hst hD (hdel a (List.mem_cons_self _ _))
        obtain ⟨ch2, hD2, heq2, -⟩ := ih m1 m2 evs' D ch1 hrun hD1
          (fun a' ha' => hdel a' (List.mem_cons_of_mem _ ha'))
        have key : takenFrom D (evs ++ evs') ++ ch2.buf ++ blockedFor m2 D
            = ch.buf ++ blockedFor m D ++ routedTo D (a :: rest) := by
          rw [takenFrom_append, routedTo_cons, ← List.append_assoc, ← heq1]
          simp only [List.append_assoc] at heq2 ⊢
          rw [heq2]
        refine ⟨ch2, hD2, key, ?_⟩
        exact ⟨ch2.buf ++ blockedFor m2 D, by rw [← List.append_assoc]; exact key⟩

theorem per_destination_fifo_witness :
    ∃ ch', sessionsGet
        (⟨[(44, ⟨100, []⟩), (33, ⟨100, []⟩), (22, ⟨100, [⟨"b", 11, 22, 1⟩]⟩), (11, ⟨100, []⟩)], none⟩ :
          RunState).sessions 22 = some ch' ∧
      takenFrom 22 [.signal 0 true, .signal 1 true, .taken 22 ⟨"a", 11, 22, 0⟩] ++ ch'.buf
          ++ blockedFor ⟨[(44, ⟨100, []⟩), (33, ⟨100, []⟩), (22, ⟨100, [⟨"b", 11, 22, 1⟩]⟩),
              (11, ⟨100, []⟩)], none⟩ 22
        = (makeChan clientBuffer).buf ++ blockedFor ⟨twoSessions 0, none⟩ 22 ++
          routedTo 22 [.loop [33 * 512] (.Send ⟨"a", 11, 22, 0⟩),
            .loop [33 * 512, 22 * 512, 44 * 512] (.Send ⟨"b", 11, 22, 1⟩), .take 22] ∧
      takenFrom 22 [.signal 0 true, .signal 1 true, .taken 22 ⟨"a", 11, 22, 0⟩]
        <+: (makeChan clientBuffer).buf ++ blockedFor ⟨twoSessions 0, none⟩ 22 ++
          routedTo 22 [.loop [33 * 512] (.Send ⟨"a", 11, 22, 0⟩),
            .loop [33 * 512, 22 * 512, 44 * 512] (.Send ⟨"b", 11, 22, 1⟩), .take 22] :=
  per_destination_fifo
    [.loop [33 * 512] (.Send ⟨"a", 11, 22, 0⟩),
      .loop [33 * 512, 22 * 512, 44 * 512] (.Send ⟨"b", 11, 22, 1⟩), .take 22]
    ⟨twoSessions 0, none⟩
    ⟨[(44, ⟨100, []⟩), (33, ⟨100, []⟩), (22, ⟨100, [⟨"b", 11, 22, 1⟩]⟩), (11, ⟨100, []⟩)], none⟩
    [.signal 0 true, .signal 1 true, .taken 22 ⟨"a", 11, 22, 0⟩] 22 (makeChan clientBuffer)
    (by decide) (by decide) (by decide)

/-! ## The defects of the control loop and of the handler -/

/-- C4 fails on the code: from the empty map, an iteration in which the `Send` case
commits and an iteration in which the `Delete` case commits each leave a new session in
the map, although no client was handed to any caller. -/
theorem leak_without_create :
    run RunState.init [.loop [5 * 512] (.Send hi), .loop [6 * 512] (.Delete ⟨9⟩)]
      = some (⟨[(6, ⟨100, []⟩), (5, ⟨100, []⟩)], none⟩, [.signal 0 false]) ∧
    handedIds [.signal 0 false] = [] ∧
    sessionsLen [(6, ⟨100, []⟩), (5, ⟨100, []⟩)] = 2 := by
  decide

/-- C6 fails on the code: session 11 is created and handed out, then deleted; in the next
iteration the operand `newClient()` draws 11 again and registers it before the `Send`
case looks the destination up, so the route to 11 is signalled deliverable and the
envelope is queued for a session that no caller was handed. -/
theorem route_after_delete_hits :
    run RunState.init
        [.loop [11 * 512] .New, .loop [33 * 512] (.Delete ⟨11⟩),
          .loop [11 * 512] (.Send ⟨"eHg=", 7, 11, 0⟩)]
      = some (⟨[(11, ⟨100, [⟨"eHg=", 7, 11, 0⟩]⟩), (33, ⟨100, []⟩)], none⟩,
          [.handed ⟨11⟩, .signal 0 true]) := by
  decide

theorem forLoop_goes_on (c : Client) (events : List Selected) :
    (forLoop c events).2 = false ∧ Did.delete c ∉ (forLoop c events).1 := by
  induction events with
  | nil => simp [forLoop]
  | cons e rest ih =>
    cases e <;> simp [forLoop, selectStmt, ih]

/-- C5 fails on the code: the reader goroutine reaches `exit <- 0` on a read error and
on a message with `Id = 0`, but after the case `<-exit` the loop of `SignalServer` goes on
(here it still forwards an envelope that arrives afterwards), and for no sequence of
events does the function return or send its client on `cm.Delete`. -/
theorem handler_never_returns :
    reader [none] = ([], true) ∧
    reader [some ⟨"", 22, 0⟩] = ([], true) ∧
    SignalServer ⟨11⟩ [.exit, .receive ⟨"aGk=", 22, 11, 0⟩]
      = ([.delivery ⟨"aGk=", 22, 11⟩], false) ∧
    ∀ (c : Client) (events : List Selected),
      (SignalServer c events).2 = false ∧ Did.delete c ∉ (SignalServer c events).1 := by
  refine ⟨by decide, by decide, by decide, fun c events => ?_⟩
  obtain ⟨h2, h1⟩ := forLoop_goes_on c events
  unfold SignalServer
  cases hf : forLoop c events with
  | mk ds left =>
    rw [hf] at h2 h1
    simp only at h2 h1
    subst h2
    exact ⟨rfl, h1⟩

/-! ## From frame to frame -/

theorem run_take_all (uid : Int) (q : List ClientMessage) :
    ∀ (m : RunState) (ch : Chan), sessionsGet m.sessions uid = some ch →
      ch.buf ++ blockedFor m uid = q →
      ∃ m', run m (List.replicate q.length (.take uid))
        = some (m', q.map (Event.taken uid)) := by
  induction q with
  | nil => intro m ch _ _; exact ⟨m, rfl⟩
  | cons x rest ih =>
    intro m ch hg hq
    have hrecv : receive m uid
        = some (⟨sessionsSetBuf m.sessions uid rest, unblock m uid⟩, x) := by
      simp [receive, hg, hq]
    have hg1 : sessionsGet (sessionsSetBuf m.sessions uid rest) uid
        = some ⟨ch.cap, rest⟩ := by
      rw [sessionsSetBuf, sessionsGet_update_self, hg]; rfl
    obtain ⟨m', hm'⟩ := ih ⟨sessionsSetBuf m.sessions uid rest, unblock m uid⟩
      ⟨ch.cap, rest⟩ hg1 (by rw [blockedFor_unblock_self]; simp)
    refine ⟨m', ?_⟩
    simp [List.replicate, run, step, hrecv, hm']

/-- C10: let `b` be registered in the map on which the `Send` case runs, and let the
handler of a session `a` (registered or not) read a message `jm` with `jm.Id ≠ 0`.  The reader goroutine passes `jm` on;
the handler routes the envelope with payload `jm.Datab64`, source `a` and destination
`jm.Dest`, and sends exactly one `Ack`, carrying the result of the `Send` case (true
exactly when `jm.Dest` is a key), `a` and `jm.Id`.  When `jm.Dest = b`, the envelopes `b`
receives from its queue are those queued before followed by this envelope, for which
`b`'s handler sends the `Delivery` with the payload, source `a` and destination `b`.
When `jm.Dest` is not a key, no queue changes, so nobody is sent a `Delivery`. -/
theorem end_to_end (sessions : Sessions) (a b : Client) (chb : Chan) (jm : Message)
    (ack : Nat) (hb : sessionsGet sessions b.User = some chb) (hk : jm.Id ≠ 0) :
    (reader [some jm]).1 = [jm] ∧
    envelope a jm ack = ⟨jm.Datab64, a.User, jm.Dest, ack⟩ ∧
    (handleRead sessions a jm ack).1
      = [.route (envelope a jm ack),
          .ack ⟨(sessionsGet sessions jm.Dest).isSome, a.User, jm.Id⟩] ∧
    (jm.Dest = b.User →
      (∃ m', run ⟨(handleRead sessions a jm ack).2.sessions,
            (handleRead sessions a jm ack).2.blocked⟩
          (List.replicate (chb.buf.length + 1) (.take b.User))
        = some (m', (chb.buf ++ [envelope a jm ack]).map (Event.taken b.User))) ∧
      (selectStmt b (.receive (envelope a jm ack))).1
        = [.delivery ⟨jm.Datab64, a.User, b.User⟩]) ∧
    (sessionsGet sessions jm.Dest = none →
      (handleRead sessions a jm ack).2.sessions = sessions ∧
      (handleRead sessions a jm ack).2.blocked = none) := by
  have hdest : (envelope a jm ack).Destination = jm.Dest := rfl
  refine ⟨by simp [reader, hk], rfl, ?_, ?_, ?_⟩
  · cases hg : sessionsGet sessions jm.Dest with
    | none =>
      simp [handleRead, selectStmt, sendCase_absent sessions (envelope a jm ack) (hdest ▸ hg)]
    | some ch =>
      by_cases hroom : ch.buf.length < ch.cap
      · simp [handleRead, selectStmt,
          sendCase_room sessions (envelope a jm ack) ch (hdest ▸ hg) hroom]
      · simp [handleRead, selectStmt,
          sendCase_full sessions (envelope a jm ack) ch (hdest ▸ hg) hroom]
  · intro hjb
    have hg : sessionsGet sessions (envelope a jm ack).Destination = some chb := by
      rw [hdest, hjb]; exact hb
    refine ⟨?_, rfl⟩
    have hlen : chb.buf.length + 1 = (chb.buf ++ [envelope a jm ack]).length := by simp
    rw [hlen]
    by_cases hroom : chb.buf.length < chb.cap
    · apply run_take_all b.User _ _ ⟨chb.cap, chb.buf ++ [envelope a jm ack]⟩
      · show sessionsGet (handleRead sessions a jm ack).2.sessions b.User = _
        simp only [handleRead, sendCase_room sessions (envelope a jm ack) chb hg hroom]
        rw [hdest, hjb]
        exact sessionsGet_push_self sessions _ _ chb hb
      · simp [handleRead, sendCase_room sessions (envelope a jm ack) chb hg hroom, blockedFor]
    · apply run_take_all b.User _ _ chb
      · show sessionsGet (handleRead sessions a jm ack).2.sessions b.User = _
        simp only [handleRead, sendCase_full sessions (envelope a jm ack) chb hg hroom]
        exact hb
      · simp [handleRead, sendCase_full sessions (envelope a jm ack) chb hg hroom, blockedFor,
          hdest, hjb]
  · intro hg
    simp [handleRead, sendCase_absent sessions (envelope a jm ack) (hdest ▸ hg)]

theorem end_to_end_witness :
    ((handleRead (twoSessions 0) ⟨11⟩ ⟨"aGk=", 22, 1⟩ 0).1
        = [.route ⟨"aGk=", 11, 22, 0⟩, .ack ⟨true, 11, 1⟩] ∧
      (∃ m', run ⟨(handleRead (twoSessions 0) ⟨11⟩ ⟨"aGk=", 22, 1⟩ 0).2.sessions,
            (handleRead (twoSessions 0) ⟨11⟩ ⟨"aGk=", 22, 1⟩ 0).2.blocked⟩ [.take 22]
          = some (m', [.taken 22 ⟨"aGk=", 11, 22, 0⟩])) ∧
      (selectStmt ⟨22⟩ (.receive ⟨"aGk=", 11, 22, 0⟩)).1 = [.delivery ⟨"aGk=", 11, 22⟩]) ∧
    ((handleRead (twoSessions 0) ⟨11⟩ ⟨"eHg=", 99, 2⟩ 1).1
        = [.route ⟨"eHg=", 11, 99, 1⟩, .ack ⟨false, 11, 2⟩] ∧
      (handleRead (twoSessions 0) ⟨11⟩ ⟨"eHg=", 99, 2⟩ 1).2.sessions = twoSessions 0 ∧
      (handleRead (twoSessions 0) ⟨11⟩ ⟨"eHg=", 99, 2⟩ 1).2.blocked = none) :=
  have h1 := end_to_end (twoSessions 0) ⟨11⟩ ⟨22⟩ (makeChan clientBuffer)
    ⟨"aGk=", 22, 1⟩ 0 (by decide) (by decide)
  have h2 := end_to_end (twoSessions 0) ⟨11⟩ ⟨22⟩ (makeChan clientBuffer)
    ⟨"eHg=", 99, 2⟩ 1 (by decide) (by decide)
  ⟨⟨h1.2.2.1, (h1.2.2.2.1 rfl).1, (h1.2.2.2.1 rfl).2⟩,
    ⟨h2.2.2.1, (h2.2.2.2.2 (by decide)).1, (h2.2.2.2.2 (by decide)).2⟩⟩

end SpeedtestDirect
